import Mathlib

/-!
Verification of the duplicate-file database tool (dup.py) against its
natural-language specification.

The development shallowly embeds the core of the program:

* the content hasher `HashFile` (SHA-256 over block-wise reads, returning
  `none` for missing or unreadable files),
* the path index (the `files` table) as an association list
  `DB = List (String × Option String)` of (path, stored digest) records,
* the filesystem as an association list of path → `FEntry`
  (content bytes, readability, symlink flag, and whether `os.remove`
  would succeed on it),
* `sameDir` (the path-segment containment test),
* SQL `LIKE` prefix matching with `case_sensitive_like` on
  (`likeAux` / `likePref`), used by `Purge` and `Remove` to select
  candidate records,
* `DupCheck` (duplicate reporting), `Integrity` (verify pass),
  `Purge` (safe deletion), `Remove` (index-only removal), and a small
  command-sequence runner `runOps`.

Integer arithmetic of SHA-256 is on `Nat` with explicit reductions
modulo 2^32.  `Purge` returns, besides the final state and the printed
reports, a certificate list recording the state at each executed
deletion, and an `aborted` field modelling the uncaught exception that
a failing `os.remove` raises.  Path arguments of `Purge`/`Remove` are
taken after `os.path.abspath` resolution, matching the specification's
statement that the CLI passes resolved absolute paths.  The index carried
through a run is the connection-visible state: statements on the single
open sqlite connection see each other's uncommitted effects immediately,
which is exactly what every intra-run re-query of the source observes.
The only commit is the one `Database.close()` issues at normal process
exit; `persistedIndex` models the database file after the process ends,
where sqlite discards the uncommitted deletes of a purge run that an
uncaught `os.remove` exception aborted before that commit.
-/

/-- One 32-bit reduction step: keep the low 32 bits of a `Nat`. -/
def w32 (x : Nat) : Nat := x % 4294967296

/-- Right rotation of a 32-bit word by `n` bits. -/
def rotr32 (n x : Nat) : Nat := (x / 2 ^ n) + (x % 2 ^ n) * 2 ^ (32 - n)

/-- Bitwise complement within 32 bits. -/
def not32 (x : Nat) : Nat := 4294967295 - x

/-- SHA-256 choice function. -/
def chFn (x y z : Nat) : Nat := (x &&& y) ^^^ (not32 x &&& z)

/-- SHA-256 majority function. -/
def majFn (x y z : Nat) : Nat := (x &&& y) ^^^ (x &&& z) ^^^ (y &&& z)

/-- SHA-256 big sigma 0. -/
def sigBig0 (x : Nat) : Nat := rotr32 2 x ^^^ rotr32 13 x ^^^ rotr32 22 x

/-- SHA-256 big sigma 1. -/
def sigBig1 (x : Nat) : Nat := rotr32 6 x ^^^ rotr32 11 x ^^^ rotr32 25 x

/-- SHA-256 small sigma 0. -/
def sigSml0 (x : Nat) : Nat := rotr32 7 x ^^^ rotr32 18 x ^^^ (x / 2 ^ 3)

/-- SHA-256 small sigma 1. -/
def sigSml1 (x : Nat) : Nat := rotr32 17 x ^^^ rotr32 19 x ^^^ (x / 2 ^ 10)

/-- The 64 SHA-256 round constants (FIPS 180-4). -/
def shaK : List Nat :=
  [1116352408, 1899447441, 3049323471, 3921009573, 961987163,
   1508970993, 2453635748, 2870763221, 3624381080, 310598401,
   607225278, 1426881987, 1925078388, 2162078206, 2614888103,
   3248222580, 3835390401, 4022224774, 264347078, 604807628,
   770255983, 1249150122, 1555081692, 1996064986, 2554220882,
   2821834349, 2952996808, 3210313671, 3336571891, 3584528711,
   113926993, 338241895, 666307205, 773529912, 1294757372,
   1396182291, 1695183700, 1986661051, 2177026350, 2456956037,
   2730485921, 2820302411, 3259730800, 3345764771, 3516065817,
   3600352804, 4094571909, 275423344, 430227734, 506948616,
   659060556, 883997877, 958139571, 1322822218, 1537002063,
   1747873779, 1955562222, 2024104815, 2227730452, 2361852424,
   2428436474, 2756734187, 3204031479, 3329325298]

/-- The SHA-256 initial hash value (FIPS 180-4). -/
def shaH0 : List Nat :=
  [1779033703, 3144134277, 1013904242, 2773480762,
   1359893119, 2600822924, 528734635, 1541459225]

/-- Big-endian 8-byte encoding of a message bit length. -/
def lenBytes (n : Nat) : List Nat :=
  [n / 2 ^ 56 % 256, n / 2 ^ 48 % 256, n / 2 ^ 40 % 256, n / 2 ^ 32 % 256,
   n / 2 ^ 24 % 256, n / 2 ^ 16 % 256, n / 2 ^ 8 % 256, n % 256]

/-- SHA-256 message padding to a multiple of 64 bytes. -/
def pad (msg : List Nat) : List Nat :=
  let L := msg.length
  let k := (119 - L % 64) % 64
  msg.map (· % 256) ++ [128] ++ List.replicate k 0 ++ lenBytes (8 * L)

/-- Pack bytes into big-endian 32-bit words. -/
def packWords : List Nat → List Nat
  | b0 :: b1 :: b2 :: b3 :: rest => (b0 * 2 ^ 24 + b1 * 2 ^ 16 + b2 * 2 ^ 8 + b3) :: packWords rest
  | _ => []

/-- Extend a 16-word block to the 64-word message schedule (`n` extension steps). -/
def sched (ws : List Nat) : Nat → List Nat
  | 0 => ws
  | n + 1 =>
    sched (ws ++ [w32 (sigSml1 (ws.getD (ws.length - 2) 0) + ws.getD (ws.length - 7) 0 +
                       sigSml0 (ws.getD (ws.length - 15) 0) + ws.getD (ws.length - 16) 0)]) n

/-- One SHA-256 compression round on the eight working words. -/
def rnd (st : List Nat) (k w : Nat) : List Nat :=
  let a := st.getD 0 0
  let b := st.getD 1 0
  let c := st.getD 2 0
  let d := st.getD 3 0
  let e := st.getD 4 0
  let f := st.getD 5 0
  let g := st.getD 6 0
  let h := st.getD 7 0
  let t1 := w32 (h + sigBig1 e + chFn e f g + k + w)
  let t2 := w32 (sigBig0 a + majFn a b c)
  [w32 (t1 + t2), a, b, c, w32 (d + t1), e, f, g]

/-- Process one 64-byte chunk: schedule, 64 rounds, and feed-forward. -/
def processChunk (H : List Nat) (chunk : List Nat) : List Nat :=
  let ws := sched (packWords chunk) 48
  let v := (List.zip ws shaK).foldl (fun st wk => rnd st wk.2 wk.1) H
  (List.zip H v).map (fun ab => w32 (ab.1 + ab.2))

/-- Split a padded message into 64-byte chunks (fuelled loop). -/
def chunksGo : Nat → List Nat → List (List Nat)
  | 0, _ => []
  | f + 1, l => if l = [] then [] else l.take 64 :: chunksGo f (l.drop 64)

/-- Split a padded message into 64-byte chunks. -/
def chunks64 (l : List Nat) : List (List Nat) := chunksGo l.length l

/-- The eight final SHA-256 hash words of a byte message. -/
def sha256words (msg : List Nat) : List Nat := (chunks64 (pad msg)).foldl processChunk shaH0

/-- Lower-case hexadecimal digit character. -/
def hexDigit (n : Nat) : Char := Char.ofNat (if n < 10 then 48 + n else 87 + n)

/-- Eight hex characters of a 32-bit word. -/
def hexOfWord (w : Nat) : List Char :=
  [hexDigit (w / 2 ^ 28 % 16), hexDigit (w / 2 ^ 24 % 16), hexDigit (w / 2 ^ 20 % 16),
   hexDigit (w / 2 ^ 16 % 16), hexDigit (w / 2 ^ 12 % 16), hexDigit (w / 2 ^ 8 % 16),
   hexDigit (w / 2 ^ 4 % 16), hexDigit (w % 16)]

/-- The SHA-256 hex digest of a byte sequence, as `hashlib.sha256(...).hexdigest()` returns it. -/
def sha256hex (msg : List Nat) : String := ⟨(List.map hexOfWord (sha256words msg)).flatten⟩

/-- The read block size of the hasher (`BLOCKSIZE = 65536` in the source). -/
def BLOCKSIZE : Nat := 65536

/-- Fuelled read loop of `HashFile`: feed `BLOCKSIZE`-byte blocks of `rest`
into the hasher state `acc` until the read returns empty. -/
def feedGo : Nat → List Nat → List Nat → List Nat
  | 0, acc, _ => acc
  | f + 1, acc, rest =>
    if rest = [] then acc else feedGo f (acc ++ rest.take BLOCKSIZE) (rest.drop BLOCKSIZE)

/-- The bytes fed to the hasher by the block-read loop of `HashFile`. -/
def feedBlocks (acc rest : List Nat) : List Nat := feedGo rest.length acc rest

/-- A filesystem entry: file content, whether reads succeed (access permission),
whether the path is a symbolic link, and whether `os.remove` on it succeeds. -/
structure FEntry where
  content : List Nat
  readable : Bool
  islink : Bool
  removable : Bool
deriving DecidableEq

/-- The filesystem: an association list from absolute path to entry. -/
abbrev FS := List (String × FEntry)

/-- The `files` table of the index: (path, stored hash) records, in rowid order.
A stored hash of `none` models SQL NULL (a failed hashing stored by the walker
or by the integrity pass). -/
abbrev DB := List (String × Option String)

/-- Path lookup in the filesystem (`os.path.exists` / opening the file). -/
def fsLookup : FS → String → Option FEntry
  | [], _ => none
  | (q, e) :: t, p => if q = p then some e else fsLookup t p

/-- Remove a path from the filesystem. -/
def fsErase (fs : FS) (p : String) : FS := fs.filter (fun q => decide (q.1 ≠ p))

/-- `os.remove`: fails (raises, modelled as `none`) when the path is absent
or when the entry is not removable; otherwise returns the updated filesystem. -/
def osRemove (fs : FS) (p : String) : Option FS :=
  match fsLookup fs p with
  | none => none
  | some e => if e.removable then some (fsErase fs p) else none

/-- `os.path.islink`. -/
def islinkB (fs : FS) (p : String) : Bool :=
  match fsLookup fs p with
  | none => false
  | some e => e.islink

/-- `HashFile`: return `none` when the path does not exist, read the file in
`BLOCKSIZE` blocks and return its SHA-256 hex digest, and return `none` on a
permission error while reading. -/
def HashFile (fs : FS) (p : String) : Option String :=
  match fsLookup fs p with
  | none => none
  | some e => if e.readable then some (sha256hex (feedBlocks [] e.content)) else none

/-- Split a character list on the path separator, Python `str.split("/")`. -/
def splitGo : List Char → List Char → List (List Char)
  | [], cur => [cur.reverse]
  | c :: t, cur => if c = '/' then cur.reverse :: splitGo t [] else splitGo t (c :: cur)

/-- Path segments of a string, Python `path.split("/")`. -/
def splitSlash (s : String) : List (List Char) := splitGo s.data []

/-- `sameDir thePath theFile` from the source: `theFile` may be at most one
segment longer than `thePath`, and all segments of `theFile` except its last
must agree with the corresponding segments of `thePath`. -/
def sameDir (thePath theFile : String) : Bool :=
  let f := splitSlash theFile
  let p := splitSlash thePath
  if p.length + 1 < f.length then false
  else (List.range (f.length - 1)).all (fun z => decide (p.getD z [] = f.getD z []))

/-- Fuelled SQL `LIKE` matcher with `case_sensitive_like` on:
`%` matches any character sequence, `_` any single character. -/
def likeAux : Nat → List Char → List Char → Bool
  | 0, _, _ => false
  | _ + 1, [], [] => true
  | _ + 1, [], _ :: _ => false
  | f + 1, c :: ps, s =>
    if c = '%' then
      likeAux f ps s || (match s with
                         | [] => false
                         | _ :: t => likeAux f (c :: ps) t)
    else
      match s with
      | [] => false
      | d :: t => if c = '_' then likeAux f ps t else decide (c = d) && likeAux f ps t

/-- SQL `LIKE` pattern match. -/
def likeMatch (pat s : List Char) : Bool := likeAux (pat.length + s.length + 1) pat s

/-- The record selection of `Purge` and `Remove`:
`path LIKE thePath || '%'` with `case_sensitive_like` on. -/
def likePref (pfx p : String) : Bool := likeMatch (pfx.data ++ ['%']) p.data

/-- Plain list prefix test on characters. -/
def isPreL : List Char → List Char → Bool
  | [], _ => true
  | _ :: _, [] => false
  | a :: as, b :: bs => decide (a = b) && isPreL as bs

/-- Raw string prefix test. -/
def strPref (a b : String) : Bool := isPreL a.data b.data

/-- Delete every record with the given path, `delete from files where path=?`. -/
def dbDelete (db : DB) (p : String) : DB := db.filter (fun r => decide (r.1 ≠ p))

/-- Overwrite the stored hash at a path, `update files set hash=? where path=?`. -/
def dbUpdateHash (db : DB) (p : String) (h : Option String) : DB :=
  db.map (fun r => if r.1 = p then (r.1, h) else r)

/-- `select * from files where hash=?`: SQL equality with a NULL parameter
selects nothing. -/
def dupsOf (db : DB) (h : Option String) : DB :=
  match h with
  | none => []
  | some v => db.filter (fun r => decide (r.2 = some v))

/-- Stable insertion into a sorted list. -/
def insertLe {α : Type} (le : α → α → Bool) (a : α) : List α → List α
  | [] => [a]
  | b :: bs => if le a b then a :: b :: bs else b :: insertLe le a bs

/-- Stable insertion sort, modelling the stable `order by` of the queries. -/
def sortLe {α : Type} (le : α → α → Bool) : List α → List α
  | [] => []
  | a :: as => insertLe le a (sortLe le as)

/-- Byte-wise (codepoint) lexicographic order on character lists, the BINARY
collation SQLite applies to text columns. -/
def lexLe : List Char → List Char → Bool
  | [], _ => true
  | _ :: _, [] => false
  | a :: as, b :: bs =>
    if a.val < b.val then true else if b.val < a.val then false else lexLe as bs

/-- Record order of `select * from files order by path`. -/
def pathLeB (a b : String × Option String) : Bool := lexLe a.1.data b.1.data

/-- Record order of `select * from files order by hash`: SQL NULL sorts first. -/
def hashLeB (a b : String × Option String) : Bool :=
  match a.2, b.2 with
  | none, _ => true
  | some _, none => false
  | some x, some y => lexLe x.data y.data

/-- The lines the tool prints while acting on records: a changed-file report
from the integrity pass, a `Purging file:` line, a `Removing ... from the
database` line. -/
inductive Report where
  | changed (p : String) (oldH newH : Option String)
  | purging (p : String)
  | removing (p : String)
deriving DecidableEq

/-- Grouping loop of `Database.DupCheck`: walk the hash-ordered records,
accumulate the paths of the current hash, and emit the previous group when
the hash changes and the group has at least two members.  As in the source,
nothing is emitted for the group still accumulated when the loop ends. -/
def dupGo : DB → Option String → List String → List (Option String × List String) →
    List (Option String × List String)
  | [], _, _, out => out
  | (p, h) :: rest, old, paths, out =>
    if old ≠ h then
      dupGo rest h [p] (if paths.length > 1 then out ++ [(old, paths)] else out)
    else dupGo rest old (paths ++ [p]) out

/-- `Database.DupCheck`: the duplicate groups the tool prints, in hash order.
The initial accumulator hash is the Python empty string. -/
def DupCheck (db : DB) : List (Option String × List String) :=
  dupGo (sortLe hashLeB db) (some ("")) [] []

/-- Loop body of `Database.Integrity` over the path-ordered snapshot: for an
existing file, re-hash and (outside dry run) overwrite a differing stored
hash; for a missing file, (outside dry run) delete the record. -/
def integrityGo (fs : FS) (dry : Bool) : DB → DB → List Report → DB × List Report
  | [], idx, reps => (idx, reps)
  | (p, hp) :: rest, idx, reps =>
    match fsLookup fs p with
    | some _ =>
      if hp = HashFile fs p then integrityGo fs dry rest idx reps
      else
        integrityGo fs dry rest (if dry then idx else dbUpdateHash idx p (HashFile fs p))
          (reps ++ [Report.changed p hp (HashFile fs p)])
    | none => integrityGo fs dry rest (if dry then idx else dbDelete idx p) reps

/-- `Database.Integrity` (the verify pass): process all records ordered by path. -/
def Integrity (dry : Bool) (fs : FS) (idx : DB) : DB × List Report :=
  integrityGo fs dry (sortLe pathLeB idx) idx []

/-- Loop body of `Database.Remove`: print and (outside dry run) delete every
selected record.  No filesystem access at all. -/
def removeGo (dry : Bool) : DB → DB → List Report → DB × List Report
  | [], idx, reps => (idx, reps)
  | (p, _) :: rest, idx, reps =>
    removeGo dry rest (if dry then idx else dbDelete idx p) (reps ++ [Report.removing p])

/-- `Database.Remove`: drop from the index every record whose path matches the
`LIKE` prefix pattern. -/
def Remove (dry : Bool) (pfx : String) (idx : DB) : DB × List Report :=
  removeGo dry (idx.filter (fun r => likePref pfx r.1)) idx []

/-- Joint state of the index and the filesystem. -/
structure St where
  index : DB
  fs : FS
deriving DecidableEq

/-- Result of a `Purge` run: final connection-visible state (the filesystem
part is real; the index part is what the open connection sees, committed
only by a later normal `Database.close()`), printed reports, one certificate
`(state at decision time, path, stored hash)` per executed deletion, and
`some path` when an `os.remove` failure raised out of the loop. -/
structure PurgeResult where
  state : St
  reports : List Report
  certs : List (St × String × Option String)
  aborted : Option String
deriving DecidableEq

/-- The freshness loop of `Purge` over a duplicate group: `die` becomes true
when any member is a symlink, fails to re-hash, or re-hashes to a different
value than stored. -/
def dieCheck (fs : FS) (dups : DB) : Bool :=
  dups.any (fun x =>
    islinkB fs x.1 || decide (HashFile fs x.1 = none) || decide (x.2 ≠ HashFile fs x.1))

/-- Loop body of `Database.Purge` over the selected snapshot: scope filter by
`sameDir`, freshness check over the live duplicate group, group-size check,
same-directory collision count, then print and (outside dry run) delete the
record and the file — the uncommitted SQL `DELETE` first, then `os.remove`,
whose failure aborts the whole run.  The threaded `St` is the
connection-visible state, which is what every later query of the same run
observes; durability of the index part is decided only at process exit
(see `persistedIndex`). -/
def purgeGo (dry : Bool) (pfx : String) :
    DB → St → List Report → List (St × String × Option String) → PurgeResult
  | [], st, reps, certs => ⟨st, reps, certs, none⟩
  | (p, hp) :: rest, st, reps, certs =>
    if sameDir pfx p then
      let dups := dupsOf st.index hp
      if dieCheck st.fs dups then purgeGo dry pfx rest st reps certs
      else if dups.length < 2 then purgeGo dry pfx rest st reps certs
      else if dups.countP (fun x => sameDir p x.1) = 1 then
        if dry then purgeGo dry pfx rest st (reps ++ [Report.purging p]) certs
        else
          match osRemove st.fs p with
          | some fs2 =>
            purgeGo dry pfx rest ⟨dbDelete st.index p, fs2⟩ (reps ++ [Report.purging p])
              (certs ++ [(st, p, hp)])
          | none => ⟨⟨dbDelete st.index p, st.fs⟩, reps ++ [Report.purging p], certs, some p⟩
      else purgeGo dry pfx rest st reps certs
    else purgeGo dry pfx rest st reps certs

/-- `Database.Purge`: run the loop over the records selected by the `LIKE`
prefix pattern. -/
def Purge (dry : Bool) (pfx : String) (s : St) : PurgeResult :=
  purgeGo dry pfx (s.index.filter (fun r => likePref pfx r.1)) s [] []

/-- A core command: verify pass, purge under a prefix, or remove under a prefix. -/
inductive Op where
  | verifyOp
  | purgeOp (pfx : String)
  | removeOp (pfx : String)

/-- Run one command on the joint state; the third component is `some path`
when the command aborted with an exception. -/
def runOp (dry : Bool) (s : St) : Op → St × List Report × Option String
  | Op.verifyOp =>
    let r := Integrity dry s.fs s.index
    (⟨r.1, s.fs⟩, r.2, none)
  | Op.purgeOp pfx =>
    let r := Purge dry pfx s
    (r.state, r.reports, r.aborted)
  | Op.removeOp pfx =>
    let r := Remove dry pfx s.index
    (⟨r.1, s.fs⟩, r.2, none)

/-- Run a command sequence, stopping (as the process does) when a command
aborts with an exception. -/
def runOps (dry : Bool) : List Op → St → St × List Report
  | [], s => (s, [])
  | op :: rest, s =>
    let r := runOp dry s op
    match r.2.2 with
    | some _ => (r.1, r.2.1)
    | none =>
      let r2 := runOps dry rest r.1
      (r2.1, r.2.1 ++ r2.2)

/-- The index as the persistent database file holds it after a process that
ran a single `Purge` ends.  `Database.Purge` issues its `DELETE`s on the
open connection without a `with self.con:` block and never commits; the
only `commit` is in `Database.close()`, which `main` calls at normal exit
only.  The uncaught exception of a failing `os.remove` propagates out of
`main` and bypasses that commit, so sqlite discards every uncommitted
delete of the aborted run; a completed run is committed at close time. -/
def persistedIndex (dry : Bool) (pfx : String) (s : St) : DB :=
  match (Purge dry pfx s).aborted with
  | some _ => s.index
  | none => (Purge dry pfx s).state.index

/-- The per-path safety conditions of the purge-safety claim, stated over the
state at decision time: the candidate's record is in its live duplicate
group with a fresh digest, every group member re-hashes to its stored digest
and is not a symlink, the same-directory collision count is exactly one, and
no other group member shares the candidate's directory. -/
def SafeToDelete (st : St) (p : String) (hp : Option String) : Prop :=
  (p, hp) ∈ dupsOf st.index hp ∧
  HashFile st.fs p = hp ∧ hp ≠ none ∧
  (∀ x ∈ dupsOf st.index hp, HashFile st.fs x.1 = x.2 ∧ islinkB st.fs x.1 = false) ∧
  (dupsOf st.index hp).countP (fun x => sameDir p x.1) = 1 ∧
  (∀ x ∈ dupsOf st.index hp, x.1 ≠ p → sameDir p x.1 = false)

/-- The scope filter of `Purge` as the specification describes it for
`removeUnder`: the `LIKE` prefix selection refined by the path-segment
containment test. -/
def specUnder (pfx p : String) : Bool := likePref pfx p && sameDir pfx p

/-- The index well-formedness invariant of the data model: at most one record
per path. -/
def pathsNodup (db : DB) : Prop := (db.map Prod.fst).Nodup

/-- Every filesystem entry can be removed by `os.remove`. -/
def allRemovable (fs : FS) : Prop := ∀ q ∈ fs, q.2.removable = true

/-- A prefix argument without SQL `LIKE` wildcard characters. -/
def noWild (pfx : String) : Prop := ('%') ∉ pfx.data ∧ ('_') ∉ pfx.data

/-- Content bytes used by the concrete scenarios. -/
def cBytes : List Nat := [104, 105]

/-- The digest the scenarios store for `cBytes` content. -/
def hDig : Option String := some (sha256hex cBytes)

/-- A plain readable, removable regular file with content `cBytes`. -/
def entOK : FEntry := ⟨cBytes, true, false, true⟩

/-- Like `entOK` but `os.remove` on it fails. -/
def entNR : FEntry := ⟨cBytes, true, false, false⟩

/-- Like `entOK` but unreadable (permission denied). -/
def entDenied : FEntry := ⟨cBytes, false, false, true⟩

/-- Scenario A of the specification: identical content indexed at `/a/x`
and `/b/x`, both fresh on disk. -/
def stA : St :=
  ⟨[(("/a/x"), hDig), (("/b/x"), hDig)], [(("/a/x"), entOK), (("/b/x"), entOK)]⟩

/-- Scenario B of the specification: identical content twice in the same
directory. -/
def stB : St :=
  ⟨[(("/a/x.txt"), hDig), (("/a/y.txt"), hDig)],
   [(("/a/x.txt"), entOK), (("/a/y.txt"), entOK)]⟩

/-- Scenario A with the `/a/x` file not removable: `os.remove` raises. -/
def stC : St :=
  ⟨[(("/a/x"), hDig), (("/b/x"), hDig)], [(("/a/x"), entNR), (("/b/x"), entOK)]⟩

/-- Filesystem with one readable and one permission-denied file. -/
def fsE : FS := [(("/a/x"), entOK), (("/a/den"), entDenied)]

/-- An index holding a path that raw-string-extends `/old` without being
located under it. -/
def idxD : DB := [(("/oldstuff/x.txt"), some ("h1"))]

/-- An index holding a single duplicate group, necessarily the one with the
largest digest. -/
def idxC3 : DB := [(("/a/x.txt"), some ("aa")), (("/b/x.txt"), some ("aa"))]

/-- The command sequence of the dry-run counterexample: purge `/a`, then
purge `/b`. -/
def opsC4 : List Op := [Op.purgeOp ("/a"), Op.purgeOp ("/b")]

/-- Filesystem with a single permission-denied file. -/
def fsF : FS := [(("/a/x"), entDenied)]

/-- Index holding a stored digest for the permission-denied file of `fsF`. -/
def idxF : DB := [(("/a/x"), some ("deadbeef"))]

set_option maxRecDepth 1000000

/-- The fuelled read loop feeds exactly the remaining bytes, provided the fuel
covers the remaining length. -/
theorem feedGo_spec : ∀ (f : Nat) (acc rest : List Nat), rest.length ≤ f →
    feedGo f acc rest = acc ++ rest := by
  intro f
  induction f with
  | zero =>
    intro acc rest h
    have : rest = [] := List.eq_nil_of_length_eq_zero (Nat.le_zero.mp h)
    simp [feedGo, this]
  | succ n ih =>
    intro acc rest h
    by_cases hr : rest = []
    · simp [feedGo, hr]
    · have hlen : (rest.drop BLOCKSIZE).length ≤ n := by
        have h1 : 1 ≤ rest.length := by
          cases rest with
          | nil => exact absurd rfl hr
          | cons a t => simp
        have h2 : (rest.drop BLOCKSIZE).length = rest.length - BLOCKSIZE := by simp
        have h3 : 1 ≤ BLOCKSIZE := by norm_num [BLOCKSIZE]
        omega
      calc feedGo (n + 1) acc rest
          = feedGo n (acc ++ rest.take BLOCKSIZE) (rest.drop BLOCKSIZE) := by
            simp [feedGo, hr]
        _ = (acc ++ rest.take BLOCKSIZE) ++ rest.drop BLOCKSIZE := ih _ _ hlen
        _ = acc ++ rest := by rw [List.append_assoc, List.take_append_drop]

/-- The block-read loop of the hasher feeds exactly the whole file content. -/
theorem feedBlocks_spec (l : List Nat) : feedBlocks [] l = l :=
  feedGo_spec l.length [] l (Nat.le_refl _)

/-- A successful filesystem lookup locates a list entry. -/
theorem fsLookup_mem : ∀ (fs : FS) (p : String) (e : FEntry),
    fsLookup fs p = some e → (p, e) ∈ fs := by
  intro fs
  induction fs with
  | nil => intro p e h; simp [fsLookup] at h
  | cons q t ih =>
    intro p e h
    cases q with
    | mk q1 q2 =>
      by_cases hq : q1 = p
      · subst hq
        simp [fsLookup] at h
        subst h
        exact List.mem_cons_self _ _
      · simp only [fsLookup, hq, if_false] at h
        exact List.mem_cons_of_mem _ (ih p e h)

/-- Lookup after erasing a path. -/
theorem fsLookup_erase : ∀ (fs : FS) (p q : String),
    fsLookup (fsErase fs p) q = if q = p then none else fsLookup fs q := by
  intro fs
  induction fs with
  | nil => intro p q; simp [fsErase, fsLookup]
  | cons a t ih =>
    intro p q
    by_cases hap : a.1 = p
    · have : fsErase (a :: t) p = fsErase t p := by
        simp [fsErase, List.filter, hap]
      rw [this, ih]
      by_cases hqp : q = p
      · simp [hqp]
      · have haq : ¬ a.1 = q := by rw [hap]; exact fun h => hqp h.symm
        simp [hqp, fsLookup, haq]
    · have : fsErase (a :: t) p = a :: fsErase t p := by
        simp [fsErase, List.filter, hap]
      rw [this]
      by_cases haq : a.1 = q
      · have hqp : ¬ q = p := by rw [← haq]; exact hap
        cases a with
        | mk a1 a2 => simp_all [fsLookup]
      · cases a with
        | mk a1 a2 =>
          simp only [fsLookup]
          simp only [show ¬ a1 = q from haq, if_false]
          exact ih p q

/-- A successful `os.remove` presupposes the path existed and erases it. -/
theorem osRemove_some : ∀ (fs : FS) (p : String) (fs2 : FS),
    osRemove fs p = some fs2 → (∃ e, fsLookup fs p = some e) ∧ fs2 = fsErase fs p := by
  intro fs p fs2 h
  unfold osRemove at h
  cases hl : fsLookup fs p with
  | none => rw [hl] at h; exact absurd h (by simp)
  | some e =>
    rw [hl] at h
    by_cases hrm : e.removable = true
    · simp [hrm] at h
      exact ⟨⟨e, rfl⟩, h.symm⟩
    · simp [hrm] at h

/-- `os.remove` succeeds on an existing removable entry. -/
theorem osRemove_of_removable (fs : FS) (p : String) (e : FEntry)
    (hl : fsLookup fs p = some e) (hrm : e.removable = true) :
    osRemove fs p = some (fsErase fs p) := by
  unfold osRemove
  rw [hl]
  simp [hrm]

/-- A non-`none` hash result presupposes an existing readable entry. -/
theorem HashFile_ne_none (fs : FS) (p : String) (h : HashFile fs p ≠ none) :
    ∃ e, fsLookup fs p = some e ∧ e.readable = true := by
  unfold HashFile at h
  cases hl : fsLookup fs p with
  | none => rw [hl] at h; exact absurd rfl h
  | some e =>
    rw [hl] at h
    by_cases hr : e.readable = true
    · exact ⟨e, rfl, hr⟩
    · simp [hr] at h

/-- Membership in a path deletion. -/
theorem mem_dbDelete (db : DB) (p : String) (r : String × Option String) :
    r ∈ dbDelete db p ↔ r ∈ db ∧ r.1 ≠ p := by
  simp [dbDelete, List.mem_filter]

/-- Membership in a duplicate group with a non-NULL hash. -/
theorem mem_dupsOf (db : DB) (v : String) (r : String × Option String) :
    r ∈ dupsOf db (some v) ↔ r ∈ db ∧ r.2 = some v := by
  simp [dupsOf, List.mem_filter]

/-- Insertion preserves membership. -/
theorem mem_insertLe {α : Type} (le : α → α → Bool) (a : α) :
    ∀ (l : List α) (x : α), x ∈ insertLe le a l ↔ x = a ∨ x ∈ l := by
  intro l
  induction l with
  | nil => intro x; simp [insertLe]
  | cons b bs ih =>
    intro x
    unfold insertLe
    by_cases hle : le a b = true
    · simp [hle, List.mem_cons]
    · rw [if_neg hle]
      simp only [List.mem_cons, ih]
      tauto

/-- Sorting preserves membership. -/
theorem mem_sortLe {α : Type} (le : α → α → Bool) :
    ∀ (l : List α) (x : α), x ∈ sortLe le l ↔ x ∈ l := by
  intro l
  induction l with
  | nil => intro x; simp [sortLe]
  | cons b bs ih =>
    intro x
    simp [sortLe, mem_insertLe, ih, List.mem_cons]

/-- Every path is in its own directory in the sense of `sameDir`. -/
theorem sameDir_self (p : String) : sameDir p p = true := by
  unfold sameDir
  simp [List.all_eq_true]

/-- A list whose `countP` is one has only one member satisfying the
predicate, up to equality of values. -/
theorem countP_one {α : Type} (pr : α → Bool) (l : List α) (h1 : l.countP pr = 1)
    (a : α) (ha : a ∈ l) (hpa : pr a = true)
    (b : α) (hb : b ∈ l) (hpb : pr b = true) : b = a := by
  rw [List.countP_eq_length_filter] at h1
  obtain ⟨c, hc⟩ := List.length_eq_one.mp h1
  have hac : a ∈ List.filter pr l := List.mem_filter.mpr ⟨ha, hpa⟩
  have hbc : b ∈ List.filter pr l := List.mem_filter.mpr ⟨hb, hpb⟩
  rw [hc] at hac hbc
  simp at hac hbc
  rw [hac, hbc]

/-- What a false `die` flag means: no symlink, no failed re-hash, no stale
digest anywhere in the group. -/
theorem dieCheck_false (fs : FS) (dups : DB) (h : dieCheck fs dups = false) :
    ∀ x ∈ dups, islinkB fs x.1 = false ∧ HashFile fs x.1 ≠ none ∧ HashFile fs x.1 = x.2 := by
  intro x hx
  have hfact := (List.any_eq_false.mp h) x hx
  simp only [Bool.or_eq_true, decide_eq_true_eq, not_or, not_not, Bool.not_eq_true] at hfact
  exact ⟨hfact.1.1, hfact.1.2, hfact.2.symm⟩

/-- A group that passed the size check has a non-NULL candidate hash. -/
theorem hp_some_of_group (idx : DB) (hp : Option String)
    (hlen : ¬ (dupsOf idx hp).length < 2) : ∃ v, hp = some v := by
  cases hp with
  | none => exact absurd (by simp [dupsOf]) hlen
  | some v => exact ⟨v, rfl⟩

/-- At a deletion site, the candidate's record is in its own live duplicate
group. -/
theorem cand_mem_dups (idx : DB) (p : String) (hp : Option String)
    (hmemidx : (p, hp) ∈ idx) (hlen : ¬ (dupsOf idx hp).length < 2) :
    (p, hp) ∈ dupsOf idx hp := by
  obtain ⟨v, hv⟩ := hp_some_of_group idx hp hlen
  subst hv
  exact (mem_dupsOf idx v (p, some v)).mpr ⟨hmemidx, rfl⟩

/-- At a deletion site, the candidate's file exists and is readable. -/
theorem lookup_some_at_deletion (st : St) (p : String) (hp : Option String)
    (hmemidx : (p, hp) ∈ st.index)
    (hdie : dieCheck st.fs (dupsOf st.index hp) = false)
    (hlen : ¬ (dupsOf st.index hp).length < 2) :
    ∃ e, fsLookup st.fs p = some e ∧ e.readable = true := by
  have hmemdup := cand_mem_dups st.index p hp hmemidx hlen
  have hfacts := dieCheck_false st.fs (dupsOf st.index hp) hdie (p, hp) hmemdup
  exact HashFile_ne_none st.fs p hfacts.2.1

/-- The conditions checked on the path a `Purge` deletion executes for imply
the full safety predicate of the purge-safety claim. -/
theorem safe_at_deletion (st : St) (p : String) (hp : Option String)
    (hmemidx : (p, hp) ∈ st.index)
    (hdie : dieCheck st.fs (dupsOf st.index hp) = false)
    (hlen : ¬ (dupsOf st.index hp).length < 2)
    (hcnt : (dupsOf st.index hp).countP (fun x => sameDir p x.1) = 1) :
    SafeToDelete st p hp := by
  obtain ⟨v, hv⟩ := hp_some_of_group st.index hp hlen
  have hmemdup := cand_mem_dups st.index p hp hmemidx hlen
  have hfacts := dieCheck_false st.fs (dupsOf st.index hp) hdie
  refine ⟨hmemdup, (hfacts (p, hp) hmemdup).2.2, ?_, ?_, hcnt, ?_⟩
  · rw [hv]; simp
  · intro x hx
    exact ⟨(hfacts x hx).2.2, (hfacts x hx).1⟩
  · intro x hx hxp
    by_contra hsame
    have hsame2 : sameDir p x.1 = true := by
      revert hsame
      cases sameDir p x.1 <;> simp
    have := countP_one (fun y => sameDir p y.1) (dupsOf st.index hp) hcnt
      (p, hp) hmemdup (by simp [sameDir_self]) x hx (by simpa using hsame2)
    exact hxp (by rw [this])

/-- Invariant of the purge loop: every certificate the loop emits satisfies
the safety predicate at its recorded state, provided the pending snapshot
records are still live (or their files already gone). -/
theorem purgeGo_certs_safe (pfx : String) : ∀ (snap : DB) (st : St) (reps : List Report)
    (certs : List (St × String × Option String)),
    (∀ c ∈ certs, SafeToDelete c.1 c.2.1 c.2.2) →
    (∀ r ∈ snap, r ∈ st.index ∨ fsLookup st.fs r.1 = none) →
    ∀ c ∈ (purgeGo false pfx snap st reps certs).certs, SafeToDelete c.1 c.2.1 c.2.2 := by
  intro snap
  induction snap with
  | nil =>
    intro st reps certs hc _ c hmem
    exact hc c (by simpa [purgeGo] using hmem)
  | cons hd tl ih =>
    intro st reps certs hc hinv c hmem
    obtain ⟨p, hp⟩ := hd
    have hinv2 : ∀ r ∈ tl, r ∈ st.index ∨ fsLookup st.fs r.1 = none := fun r hr =>
      hinv r (List.mem_cons_of_mem _ hr)
    simp only [purgeGo] at hmem
    split at hmem
    case isFalse hsd => exact ih st reps certs hc hinv2 c hmem
    case isTrue hsd =>
      split at hmem
      case isTrue hdie => exact ih st reps certs hc hinv2 c hmem
      case isFalse hdie0 =>
        have hdie : dieCheck st.fs (dupsOf st.index hp) = false := by
          revert hdie0
          cases dieCheck st.fs (dupsOf st.index hp) <;> simp
        split at hmem
        case isTrue hlen => exact ih st reps certs hc hinv2 c hmem
        case isFalse hlen =>
          split at hmem
          case isFalse hcnt => exact ih st reps certs hc hinv2 c hmem
          case isTrue hcnt =>
            cases hrm : osRemove st.fs p with
            | none =>
              rw [hrm] at hmem
              simp only at hmem
              exact hc c hmem
            | some fs2 =>
              rw [hrm] at hmem
              simp only at hmem
              obtain ⟨⟨e, he⟩, hfs2⟩ := osRemove_some st.fs p fs2 hrm
              have hmemidx : (p, hp) ∈ st.index := by
                rcases hinv (p, hp) (List.mem_cons_self _ _) with h | h
                · exact h
                · rw [h] at he; exact absurd he (by simp)
              have hsafe := safe_at_deletion st p hp hmemidx hdie hlen hcnt
              refine ih ⟨dbDelete st.index p, fs2⟩ _ _ ?_ ?_ c hmem
              · intro c2 hc2
                rcases List.mem_append.mp hc2 with h2 | h2
                · exact hc c2 h2
                · have : c2 = (st, p, hp) := by simpa using h2
                  rw [this]
                  exact hsafe
              · intro r hr
                by_cases hrp : r.1 = p
                · right
                  show fsLookup fs2 r.1 = none
                  rw [hfs2, fsLookup_erase, if_pos hrp]
                · rcases hinv2 r hr with h2 | h2
                  · left
                    exact (mem_dbDelete st.index p r).mpr ⟨h2, hrp⟩
                  · right
                    show fsLookup fs2 r.1 = none
                    rw [hfs2, fsLookup_erase, if_neg hrp]
                    exact h2

/-- A dry purge run never mutates the state and never aborts. -/
theorem purgeGo_dry (pfx : String) : ∀ (snap : DB) (st : St) (reps : List Report)
    (certs : List (St × String × Option String)),
    (purgeGo true pfx snap st reps certs).state = st ∧
    (purgeGo true pfx snap st reps certs).certs = certs ∧
    (purgeGo true pfx snap st reps certs).aborted = none := by
  intro snap
  induction snap with
  | nil => intro st reps certs; exact ⟨rfl, rfl, rfl⟩
  | cons hd tl ih =>
    intro st reps certs
    obtain ⟨p, hp⟩ := hd
    simp only [purgeGo]
    split
    case isFalse hsd => exact ih st reps certs
    case isTrue hsd =>
      split
      case isTrue hdie => exact ih st reps certs
      case isFalse hdie =>
        split
        case isTrue hlen => exact ih st reps certs
        case isFalse hlen =>
          split
          case isFalse hcnt => exact ih st reps certs
          case isTrue hcnt => exact ih st (reps ++ [Report.purging p]) certs

/-- Invariant of the purge loop under a well-formed snapshot: when every
snapshot record is live and every filesystem entry is removable, the loop
never aborts. -/
theorem purgeGo_no_abort (pfx : String) : ∀ (snap : DB) (st : St) (reps : List Report)
    (certs : List (St × String × Option String)),
    (snap.map Prod.fst).Nodup →
    (∀ r ∈ snap, r ∈ st.index) →
    allRemovable st.fs →
    (purgeGo false pfx snap st reps certs).aborted = none := by
  intro snap
  induction snap with
  | nil => intro st reps certs _ _ _; rfl
  | cons hd tl ih =>
    intro st reps certs hnd hlive hrm
    obtain ⟨p, hp⟩ := hd
    have hnd2 : (tl.map Prod.fst).Nodup := (List.nodup_cons.mp hnd).2
    have hpnotin : p ∉ tl.map Prod.fst := (List.nodup_cons.mp hnd).1
    have hlive2 : ∀ r ∈ tl, r ∈ st.index := fun r hr => hlive r (List.mem_cons_of_mem _ hr)
    simp only [purgeGo]
    split
    case isFalse hsd => exact ih st reps certs hnd2 hlive2 hrm
    case isTrue hsd =>
      split
      case isTrue hdie => exact ih st reps certs hnd2 hlive2 hrm
      case isFalse hdie0 =>
        have hdie : dieCheck st.fs (dupsOf st.index hp) = false := by
          revert hdie0
          cases dieCheck st.fs (dupsOf st.index hp) <;> simp
        split
        case isTrue hlen => exact ih st reps certs hnd2 hlive2 hrm
        case isFalse hlen =>
          split
          case isFalse hcnt => exact ih st reps certs hnd2 hlive2 hrm
          case isTrue hcnt =>
            obtain ⟨e, he, _⟩ := lookup_some_at_deletion st p hp
              (hlive (p, hp) (List.mem_cons_self _ _)) hdie hlen
            have hrme : e.removable = true := hrm (p, e) (fsLookup_mem st.fs p e he)
            rw [osRemove_of_removable st.fs p e he hrme]
            simp only
            refine ih ⟨dbDelete st.index p, fsErase st.fs p⟩ _ _ hnd2 ?_ ?_
            · intro r hr
              have hrp : r.1 ≠ p := by
                intro heq
                exact hpnotin (heq ▸ List.mem_map.mpr ⟨r, hr, rfl⟩)
              exact (mem_dbDelete st.index p r).mpr ⟨hlive2 r hr, hrp⟩
            · intro q hq
              exact hrm q (List.mem_of_mem_filter hq)

/-- Invariant of the purge loop for the abort case: when the loop aborts at
path `p`, the final state has no record for `p` in the index while `p` is
still present in the filesystem. -/
theorem purgeGo_abort_state (pfx : String) : ∀ (snap : DB) (st : St) (reps : List Report)
    (certs : List (St × String × Option String)) (p : String),
    (snap.map Prod.fst).Nodup →
    (∀ r ∈ snap, r ∈ st.index) →
    (purgeGo false pfx snap st reps certs).aborted = some p →
    (∀ h, (p, h) ∉ (purgeGo false pfx snap st reps certs).state.index) ∧
    fsLookup (purgeGo false pfx snap st reps certs).state.fs p ≠ none := by
  intro snap
  induction snap with
  | nil => intro st reps certs p _ _ hab; exact absurd hab (by simp [purgeGo])
  | cons hd tl ih =>
    intro st reps certs p hnd hlive hab
    obtain ⟨q, hq⟩ := hd
    have hnd2 : (tl.map Prod.fst).Nodup := (List.nodup_cons.mp hnd).2
    have hqnotin : q ∉ tl.map Prod.fst := (List.nodup_cons.mp hnd).1
    have hlive2 : ∀ r ∈ tl, r ∈ st.index := fun r hr => hlive r (List.mem_cons_of_mem _ hr)
    simp only [purgeGo] at hab ⊢
    split at hab
    case isFalse hsd =>
      rw [if_neg hsd]
      exact ih st reps certs p hnd2 hlive2 hab
    case isTrue hsd =>
      rw [if_pos hsd]
      split at hab
      case isTrue hdie =>
        rw [if_pos hdie]
        exact ih st reps certs p hnd2 hlive2 hab
      case isFalse hdie0 =>
        rw [if_neg hdie0]
        have hdie : dieCheck st.fs (dupsOf st.index hq) = false := by
          revert hdie0
          cases dieCheck st.fs (dupsOf st.index hq) <;> simp
        split at hab
        case isTrue hlen =>
          rw [if_pos hlen]
          exact ih st reps certs p hnd2 hlive2 hab
        case isFalse hlen =>
          rw [if_neg hlen]
          split at hab
          case isFalse hcnt =>
            rw [if_neg hcnt]
            exact ih st reps certs p hnd2 hlive2 hab
          case isTrue hcnt =>
            rw [if_pos hcnt]
            obtain ⟨e, he, _⟩ := lookup_some_at_deletion st q hq
              (hlive (q, hq) (List.mem_cons_self _ _)) hdie hlen
            cases hrm : osRemove st.fs q with
            | none =>
              simp only [hrm, Bool.false_eq_true, if_false] at hab ⊢
              have hpq : p = q := (Option.some_inj.mp hab).symm
              subst hpq
              constructor
              · intro h hmem
                exact ((mem_dbDelete st.index p (p, h)).mp hmem).2 rfl
              · rw [he]; simp
            | some fs2 =>
              simp only [hrm, Bool.false_eq_true, if_false] at hab ⊢
              refine ih ⟨dbDelete st.index q, fs2⟩ _ _ p hnd2 ?_ hab
              intro r hr
              have hrq : r.1 ≠ q := by
                intro heq
                exact hqnotin (heq ▸ List.mem_map.mpr ⟨r, hr, rfl⟩)
              exact (mem_dbDelete st.index q r).mpr ⟨hlive2 r hr, hrq⟩

/-- A record is good for a filesystem when its file exists and its stored
hash equals the recomputed hash. -/
def GoodRec (fs : FS) (r : String × Option String) : Prop :=
  fsLookup fs r.1 ≠ none ∧ r.2 = HashFile fs r.1

/-- Case analysis for membership in a hash update. -/
theorem mem_dbUpdateHash (idx : DB) (p : String) (h : Option String)
    (r : String × Option String) (hr : r ∈ dbUpdateHash idx p h) :
    (r.1 = p ∧ r.2 = h) ∨ (r ∈ idx ∧ r.1 ≠ p) := by
  unfold dbUpdateHash at hr
  rcases List.mem_map.mp hr with ⟨a, ha, heq⟩
  by_cases hap : a.1 = p
  · left
    rw [← heq]
    simp [hap]
  · right
    rw [← heq]
    simp only [hap, if_false]
    exact ⟨ha, hap⟩

/-- A hash update keeps a record at every present path. -/
theorem exists_mem_dbUpdateHash (idx : DB) (p q : String) (h : Option String)
    (hex : ∃ h0, (q, h0) ∈ idx) : ∃ h1, (q, h1) ∈ dbUpdateHash idx p h := by
  obtain ⟨h0, hm⟩ := hex
  refine ⟨if q = p then h else h0, List.mem_map.mpr ⟨(q, h0), hm, ?_⟩⟩
  by_cases hqp : q = p <;> simp [hqp]

/-- After a real integrity pass, every surviving record is good, provided
every live record is either still pending in the snapshot or already good. -/
theorem integrityGo_good (fs : FS) : ∀ (snap idx : DB) (reps : List Report),
    (∀ r ∈ idx, r ∈ snap ∨ GoodRec fs r) →
    ∀ r ∈ (integrityGo fs false snap idx reps).1, GoodRec fs r := by
  intro snap
  induction snap with
  | nil =>
    intro idx reps hinv r hr
    rcases hinv r (by simpa [integrityGo] using hr) with h | h
    · exact absurd h (List.not_mem_nil r)
    · exact h
  | cons hd tl ih =>
    intro idx reps hinv r hr
    obtain ⟨p, hp⟩ := hd
    cases hl : fsLookup fs p with
    | some e =>
      by_cases heq : hp = HashFile fs p
      · rw [show integrityGo fs false ((p, hp) :: tl) idx reps =
            integrityGo fs false tl idx reps from by simp [integrityGo, hl, heq]] at hr
        refine ih idx reps ?_ r hr
        intro r2 hr2
        rcases hinv r2 hr2 with h2 | h2
        · rcases List.mem_cons.mp h2 with h3 | h3
          · right
            rw [h3]
            exact ⟨by rw [hl]; simp, heq⟩
          · exact Or.inl h3
        · exact Or.inr h2
      · rw [show integrityGo fs false ((p, hp) :: tl) idx reps =
            integrityGo fs false tl (dbUpdateHash idx p (HashFile fs p))
              (reps ++ [Report.changed p hp (HashFile fs p)]) from by
              simp [integrityGo, hl, heq]] at hr
        refine ih _ _ ?_ r hr
        intro r2 hr2
        rcases mem_dbUpdateHash idx p (HashFile fs p) r2 hr2 with h2 | h2
        · right
          refine ⟨by rw [h2.1, hl]; simp, ?_⟩
          rw [h2.2, h2.1]
        · rcases hinv r2 h2.1 with h3 | h3
          · rcases List.mem_cons.mp h3 with h4 | h4
            · exact absurd (by rw [h4]) h2.2
            · exact Or.inl h4
          · exact Or.inr h3
    | none =>
      rw [show integrityGo fs false ((p, hp) :: tl) idx reps =
          integrityGo fs false tl (dbDelete idx p) reps from by simp [integrityGo, hl]] at hr
      refine ih _ _ ?_ r hr
      intro r2 hr2
      have h2 := (mem_dbDelete idx p r2).mp hr2
      rcases hinv r2 h2.1 with h3 | h3
      · rcases List.mem_cons.mp h3 with h4 | h4
        · exact absurd (by rw [h4]) h2.2
        · exact Or.inl h4
      · exact Or.inr h3

/-- A real integrity pass over a snapshot of good records does nothing. -/
theorem integrityGo_noop (fs : FS) : ∀ (snap idx : DB) (reps : List Report),
    (∀ r ∈ snap, GoodRec fs r) → integrityGo fs false snap idx reps = (idx, reps) := by
  intro snap
  induction snap with
  | nil => intro idx reps _; rfl
  | cons hd tl ih =>
    intro idx reps hg
    obtain ⟨p, hp⟩ := hd
    have hgood := hg (p, hp) (List.mem_cons_self _ _)
    cases hl : fsLookup fs p with
    | none => exact absurd hl hgood.1
    | some e =>
      rw [show integrityGo fs false ((p, hp) :: tl) idx reps =
          integrityGo fs false tl idx reps from by
          simp only [integrityGo, hl]
          rw [if_pos hgood.2]]
      exact ih idx reps (fun r hr => hg r (List.mem_cons_of_mem _ hr))

/-- A real integrity pass keeps a record at every path whose file exists. -/
theorem integrityGo_keeps (fs : FS) (q : String) : ∀ (snap idx : DB) (reps : List Report),
    (∃ h, (q, h) ∈ idx) → fsLookup fs q ≠ none →
    ∃ h, (q, h) ∈ (integrityGo fs false snap idx reps).1 := by
  intro snap
  induction snap with
  | nil => intro idx reps hex _; exact hex
  | cons hd tl ih =>
    intro idx reps hex hq
    obtain ⟨p, hp⟩ := hd
    cases hl : fsLookup fs p with
    | some e =>
      by_cases heq : hp = HashFile fs p
      · rw [show integrityGo fs false ((p, hp) :: tl) idx reps =
            integrityGo fs false tl idx reps from by simp [integrityGo, hl, heq]]
        exact ih idx reps hex hq
      · rw [show integrityGo fs false ((p, hp) :: tl) idx reps =
            integrityGo fs false tl (dbUpdateHash idx p (HashFile fs p))
              (reps ++ [Report.changed p hp (HashFile fs p)]) from by
              simp [integrityGo, hl, heq]]
        exact ih _ _ (exists_mem_dbUpdateHash idx p q (HashFile fs p) hex) hq
    | none =>
      have hqp : q ≠ p := fun hqp => hq (hqp ▸ hl)
      rw [show integrityGo fs false ((p, hp) :: tl) idx reps =
          integrityGo fs false tl (dbDelete idx p) reps from by simp [integrityGo, hl]]
      obtain ⟨h0, hm⟩ := hex
      exact ih _ _ ⟨h0, (mem_dbDelete idx p (q, h0)).mpr ⟨hm, hqp⟩⟩ hq

/-- The integrity pass only appends to its report accumulator. -/
theorem integrityGo_reports_mono (fs : FS) (dry : Bool) : ∀ (snap idx : DB) (reps : List Report),
    ∃ t, (integrityGo fs dry snap idx reps).2 = reps ++ t := by
  intro snap
  induction snap with
  | nil => intro idx reps; exact ⟨[], by simp [integrityGo]⟩
  | cons hd tl ih =>
    intro idx reps
    obtain ⟨p, hp⟩ := hd
    cases hl : fsLookup fs p with
    | some e =>
      by_cases heq : hp = HashFile fs p
      · rw [show integrityGo fs dry ((p, hp) :: tl) idx reps =
            integrityGo fs dry tl idx reps from by simp [integrityGo, hl, heq]]
        exact ih idx reps
      · rw [show integrityGo fs dry ((p, hp) :: tl) idx reps =
            integrityGo fs dry tl (if dry then idx else dbUpdateHash idx p (HashFile fs p))
              (reps ++ [Report.changed p hp (HashFile fs p)]) from by
              simp [integrityGo, hl, heq]]
        obtain ⟨t, ht⟩ := ih (if dry then idx else dbUpdateHash idx p (HashFile fs p))
          (reps ++ [Report.changed p hp (HashFile fs p)])
        exact ⟨[Report.changed p hp (HashFile fs p)] ++ t, by rw [ht, List.append_assoc]⟩
    | none =>
      rw [show integrityGo fs dry ((p, hp) :: tl) idx reps =
          integrityGo fs dry tl (if dry then idx else dbDelete idx p) reps from by
          simp [integrityGo, hl]]
      exact ih _ reps

/-- A stale existing record in the snapshot is reported as changed by a real
integrity pass. -/
theorem integrityGo_report_of (fs : FS) (q : String) (hq : Option String) :
    ∀ (snap idx : DB) (reps : List Report),
    (q, hq) ∈ snap → fsLookup fs q ≠ none → hq ≠ HashFile fs q →
    Report.changed q hq (HashFile fs q) ∈ (integrityGo fs false snap idx reps).2 := by
  intro snap
  induction snap with
  | nil => intro idx reps hmem _ _; exact absurd hmem (List.not_mem_nil _)
  | cons hd tl ih =>
    intro idx reps hmem hq2 hne
    obtain ⟨p, hp⟩ := hd
    rcases List.mem_cons.mp hmem with hc | hc
    · have hpq : p = q := congrArg Prod.fst hc.symm
      have hph : hp = hq := congrArg Prod.snd hc.symm
      subst hpq
      subst hph
      cases hl : fsLookup fs p with
      | none => exact absurd hl hq2
      | some e =>
        rw [show integrityGo fs false ((p, hp) :: tl) idx reps =
            integrityGo fs false tl (dbUpdateHash idx p (HashFile fs p))
              (reps ++ [Report.changed p hp (HashFile fs p)]) from by
              simp [integrityGo, hl, hne]]
        obtain ⟨t, ht⟩ := integrityGo_reports_mono fs false tl
          (dbUpdateHash idx p (HashFile fs p)) (reps ++ [Report.changed p hp (HashFile fs p)])
        rw [ht]
        simp
    · cases hl : fsLookup fs p with
      | some e =>
        by_cases heq : hp = HashFile fs p
        · rw [show integrityGo fs false ((p, hp) :: tl) idx reps =
              integrityGo fs false tl idx reps from by simp [integrityGo, hl, heq]]
          exact ih idx reps hc hq2 hne
        · rw [show integrityGo fs false ((p, hp) :: tl) idx reps =
              integrityGo fs false tl (dbUpdateHash idx p (HashFile fs p))
                (reps ++ [Report.changed p hp (HashFile fs p)]) from by
                simp [integrityGo, hl, heq]]
          exact ih _ _ hc hq2 hne
      | none =>
        rw [show integrityGo fs false ((p, hp) :: tl) idx reps =
            integrityGo fs false tl (dbDelete idx p) reps from by simp [integrityGo, hl]]
        exact ih _ reps hc hq2 hne

/-- A dry integrity pass leaves the index unchanged. -/
theorem integrityGo_dry_idx (fs : FS) : ∀ (snap idx : DB) (reps : List Report),
    (integrityGo fs true snap idx reps).1 = idx := by
  intro snap
  induction snap with
  | nil => intro idx reps; rfl
  | cons hd tl ih =>
    intro idx reps
    obtain ⟨p, hp⟩ := hd
    cases hl : fsLookup fs p with
    | some e =>
      by_cases heq : hp = HashFile fs p
      · rw [show integrityGo fs true ((p, hp) :: tl) idx reps =
            integrityGo fs true tl idx reps from by simp [integrityGo, hl, heq]]
        exact ih idx reps
      · rw [show integrityGo fs true ((p, hp) :: tl) idx reps =
            integrityGo fs true tl idx (reps ++ [Report.changed p hp (HashFile fs p)]) from by
            simp [integrityGo, hl, heq]]
        exact ih idx _
    | none =>
      rw [show integrityGo fs true ((p, hp) :: tl) idx reps =
          integrityGo fs true tl idx reps from by simp [integrityGo, hl]]
      exact ih idx reps

/-- Dry and real integrity passes print the same reports: the branch taken
for a record depends only on the snapshot and the filesystem. -/
theorem integrityGo_reports_dry (fs : FS) : ∀ (snap idx1 idx2 : DB) (reps : List Report),
    (integrityGo fs true snap idx1 reps).2 = (integrityGo fs false snap idx2 reps).2 := by
  intro snap
  induction snap with
  | nil => intro idx1 idx2 reps; rfl
  | cons hd tl ih =>
    intro idx1 idx2 reps
    obtain ⟨p, hp⟩ := hd
    cases hl : fsLookup fs p with
    | some e =>
      by_cases heq : hp = HashFile fs p
      · rw [show integrityGo fs true ((p, hp) :: tl) idx1 reps =
            integrityGo fs true tl idx1 reps from by simp [integrityGo, hl, heq]]
        rw [show integrityGo fs false ((p, hp) :: tl) idx2 reps =
            integrityGo fs false tl idx2 reps from by simp [integrityGo, hl, heq]]
        exact ih idx1 idx2 reps
      · rw [show integrityGo fs true ((p, hp) :: tl) idx1 reps =
            integrityGo fs true tl idx1 (reps ++ [Report.changed p hp (HashFile fs p)]) from by
            simp [integrityGo, hl, heq]]
        rw [show integrityGo fs false ((p, hp) :: tl) idx2 reps =
            integrityGo fs false tl (dbUpdateHash idx2 p (HashFile fs p))
              (reps ++ [Report.changed p hp (HashFile fs p)]) from by
            simp [integrityGo, hl, heq]]
        exact ih idx1 _ _
    | none =>
      rw [show integrityGo fs true ((p, hp) :: tl) idx1 reps =
          integrityGo fs true tl idx1 reps from by simp [integrityGo, hl]]
      rw [show integrityGo fs false ((p, hp) :: tl) idx2 reps =
          integrityGo fs false tl (dbDelete idx2 p) reps from by simp [integrityGo, hl]]
      exact ih idx1 _ reps


/-- A real remove pass deletes exactly the records whose path occurs in the
selected snapshot. -/
theorem removeGo_spec : ∀ (snap idx : DB) (reps : List Report),
    (removeGo false snap idx reps).1 =
      idx.filter (fun r => decide (r.1 ∉ snap.map Prod.fst)) := by
  intro snap
  induction snap with
  | nil =>
    intro idx reps
    simp [removeGo]
  | cons hd tl ih =>
    intro idx reps
    obtain ⟨p, h⟩ := hd
    rw [show removeGo false ((p, h) :: tl) idx reps =
        removeGo false tl (dbDelete idx p) (reps ++ [Report.removing p]) from by
        simp [removeGo]]
    rw [ih]
    unfold dbDelete
    rw [List.filter_filter]
    refine List.filter_congr ?_
    intro a ha
    by_cases h1 : a.1 = p <;> by_cases h2 : a.1 ∈ tl.map Prod.fst <;>
      simp [h1, h2, List.mem_cons]

/-- A dry remove pass leaves the index unchanged. -/
theorem removeGo_dry_idx : ∀ (snap idx : DB) (reps : List Report),
    (removeGo true snap idx reps).1 = idx := by
  intro snap
  induction snap with
  | nil => intro idx reps; rfl
  | cons hd tl ih =>
    intro idx reps
    obtain ⟨p, h⟩ := hd
    rw [show removeGo true ((p, h) :: tl) idx reps =
        removeGo true tl idx (reps ++ [Report.removing p]) from by simp [removeGo]]
    exact ih idx _

/-- The remove pass prints one removal line per selected record, dry or not. -/
theorem removeGo_reports_spec (dry : Bool) : ∀ (snap idx : DB) (reps : List Report),
    (removeGo dry snap idx reps).2 = reps ++ snap.map (fun r => Report.removing r.1) := by
  intro snap
  induction snap with
  | nil => intro idx reps; simp [removeGo]
  | cons hd tl ih =>
    intro idx reps
    obtain ⟨p, h⟩ := hd
    rw [show removeGo dry ((p, h) :: tl) idx reps =
        removeGo dry tl (if dry then idx else dbDelete idx p)
          (reps ++ [Report.removing p]) from by simp [removeGo]]
    rw [ih]
    simp

/-- A dry purge leaves the state unchanged and never aborts. -/
theorem Purge_dry (pfx : String) (s : St) :
    (Purge true pfx s).state = s ∧ (Purge true pfx s).aborted = none := by
  unfold Purge
  exact ⟨(purgeGo_dry pfx _ s [] []).1, (purgeGo_dry pfx _ s [] []).2.2⟩

/-- A dry run of any command sequence returns to the same joint state. -/
theorem runOps_dry_state : ∀ (ops : List Op) (s : St), (runOps true ops s).1 = s := by
  intro ops
  induction ops with
  | nil => intro s; rfl
  | cons op rest ih =>
    intro s
    cases op with
    | verifyOp =>
      simp only [runOps, runOp]
      rw [show (Integrity true s.fs s.index).1 = s.index from integrityGo_dry_idx s.fs _ _ _]
      exact ih _
    | purgeOp pfx =>
      simp only [runOps, runOp]
      simp only [(Purge_dry pfx s).2]
      rw [(Purge_dry pfx s).1]
      exact ih s
    | removeOp pfx =>
      simp only [runOps, runOp]
      rw [show (Remove true pfx s.index).1 = s.index from removeGo_dry_idx _ _ _]
      exact ih _

/-- A terminal `%` pattern matches any string, given sufficient fuel. -/
theorem likeAuxPct : ∀ (f : Nat) (s : List Char), s.length + 2 ≤ f →
    likeAux f ['%'] s = true := by
  intro f
  induction f with
  | zero => intro s h; exact absurd h (by omega)
  | succ n ih =>
    intro s h
    cases s with
    | nil =>
      obtain ⟨m, hm⟩ : ∃ m, n = m + 1 := ⟨n - 1, by omega⟩
      subst hm
      simp [likeAux]
    | cons c t =>
      have ht : t.length + 2 ≤ n := by
        simp only [List.length_cons] at h
        omega
      simp [likeAux, ih t ht]

/-- On a wildcard-free prefix pattern, the `LIKE` matcher is plain string
prefix matching. -/
theorem likeAux_noWild : ∀ (f : Nat) (pat s : List Char),
    ('%') ∉ pat → ('_') ∉ pat → pat.length + s.length + 2 ≤ f →
    likeAux f (pat ++ ['%']) s = isPreL pat s := by
  intro f
  induction f with
  | zero => intro pat s _ _ h; exact absurd h (by omega)
  | succ n ih =>
    intro pat s hp hu h
    cases pat with
    | nil =>
      simp only [List.nil_append]
      rw [likeAuxPct (n + 1) s (by simpa using h)]
      simp [isPreL]
    | cons c cs =>
      have hcp : ¬ c = '%' := fun hh => hp (List.mem_cons.mpr (Or.inl hh.symm))
      have hcu : ¬ c = '_' := fun hh => hu (List.mem_cons.mpr (Or.inl hh.symm))
      have hp2 : ('%') ∉ cs := fun hh => hp (List.mem_cons_of_mem _ hh)
      have hu2 : ('_') ∉ cs := fun hh => hu (List.mem_cons_of_mem _ hh)
      cases s with
      | nil => simp [likeAux, isPreL, hcp]
      | cons d t =>
        have ht : cs.length + t.length + 2 ≤ n := by
          simp only [List.length_cons] at h
          omega
        rw [show likeAux (n + 1) ((c :: cs) ++ ['%']) (d :: t) =
            (decide (c = d) && likeAux n (cs ++ ['%']) t) from by
            simp [likeAux, hcp, hcu]]
        rw [ih cs t hp2 hu2 ht]
        rfl

/-- Without wildcard characters in the prefix, the record selection of
`Purge` and `Remove` is raw string-prefix selection. -/
theorem likePref_eq_strPref (pfx : String) (hw : noWild pfx) (p : String) :
    likePref pfx p = strPref pfx p := by
  unfold likePref likeMatch strPref
  rw [show (pfx.data ++ ['%']).length + p.data.length + 1 =
      pfx.data.length + p.data.length + 2 from by simp; omega]
  exact likeAux_noWild _ pfx.data p.data hw.1 hw.2 (Nat.le_refl _)

/-- The full characterization of a real `Remove`: exactly the `LIKE`-prefix
matches are deleted from the index. -/
theorem Remove_false_spec (pfx : String) (idx : DB) :
    (Remove false pfx idx).1 = idx.filter (fun r => !(likePref pfx r.1)) := by
  unfold Remove
  rw [removeGo_spec]
  refine List.filter_congr ?_
  intro a ha
  by_cases hl : likePref pfx a.1 = true
  · have hmem : a.1 ∈ (idx.filter (fun r => likePref pfx r.1)).map Prod.fst :=
      List.mem_map.mpr ⟨a, List.mem_filter.mpr ⟨ha, hl⟩, rfl⟩
    simp [hmem, hl]
  · have hnot : a.1 ∉ (idx.filter (fun r => likePref pfx r.1)).map Prod.fst := by
      intro hmem
      rcases List.mem_map.mp hmem with ⟨b, hb, hbeq⟩
      have hpb := (List.mem_filter.mp hb).2
      rw [hbeq] at hpb
      exact hl hpb
    have hl2 : likePref pfx a.1 = false := by
      revert hl
      cases likePref pfx a.1 <;> simp
    simp [hnot, hl2]

/-- C1 (purge safety invariant): every path a real `Purge` actually deletes
from disk and from the index satisfies, at the state where the decision was
taken: (a) its recomputed digest equals its stored digest, (b) every record
sharing that digest recomputes to its stored digest and is not a symlink,
and (c) it is the only member of its duplicate group residing in its own
directory (collision count exactly one, no other member in the same
directory). -/
theorem purge_deletion_safety : ∀ (pfx : String) (s : St),
    ∀ c ∈ (Purge false pfx s).certs, SafeToDelete c.1 c.2.1 c.2.2 := by
  intro pfx s c hc
  refine purgeGo_certs_safe pfx _ s [] [] (by simp) ?_ c hc
  intro r hr
  exact Or.inl (List.mem_of_mem_filter hr)

/-- Witness for C1: in Scenario A, `Purge` deletes `/a/x` and the recorded
deletion satisfies the safety predicate. -/
theorem purge_deletion_safety_witness : SafeToDelete stA ("/a/x") hDig :=
  purge_deletion_safety ("/a") stA (stA, ("/a/x"), hDig) (by decide)

/-- C2 counterexample: `Remove` does not use the path-segment containment
semantics of the purge scope filter: on an index holding only
`/oldstuff/x.txt`, `removeUnder("/old")` deletes the record although the
path is not located under `/old` segment-wise. -/
theorem remove_not_segment_scoped :
    ¬ ((Remove false ("/old") idxD).1 =
       idxD.filter (fun r => !(specUnder ("/old") r.1))) := by decide

/-- C2 amended: a real `Remove` deletes the index entries of exactly those
records whose path matches `pathPrefix` as a raw SQL `LIKE` prefix pattern
(plain string prefix whenever the prefix has no wildcard characters) — not
the segment-wise containment of the purge scope filter — a dry `Remove`
deletes nothing, and `Remove` never touches the filesystem. -/
theorem remove_raw_like_semantics :
    (∀ (pfx : String) (idx : DB),
      (Remove false pfx idx).1 = idx.filter (fun r => !(likePref pfx r.1))) ∧
    (∀ (pfx : String) (idx : DB), (Remove true pfx idx).1 = idx) ∧
    (∀ (pfx : String), noWild pfx → ∀ (p : String), likePref pfx p = strPref pfx p) ∧
    (∀ (dry : Bool) (pfx : String) (s : St), (runOp dry s (Op.removeOp pfx)).1.fs = s.fs) := by
  refine ⟨Remove_false_spec, ?_, likePref_eq_strPref, ?_⟩
  · intro pfx idx
    exact removeGo_dry_idx _ _ _
  · intro dry pfx s
    rfl

/-- Witness for amended C2: `/old` has no wildcards, so the selection is a
raw string-prefix match. -/
theorem remove_raw_like_semantics_witness :
    likePref ("/old") ("/oldstuff/x.txt") = strPref ("/old") ("/oldstuff/x.txt") :=
  remove_raw_like_semantics.2.2.1 ("/old") (by unfold noWild; decide) ("/oldstuff/x.txt")

/-- C3 (code bug, evaluated at the failing input): on an index holding a
single duplicate group — necessarily the group with the largest digest —
`DupCheck` reports nothing, because the loop never flushes the group still
accumulated when it ends, although the group has two members. -/
theorem dupcheck_drops_last_group :
    DupCheck idxC3 = [] ∧ (dupsOf idxC3 (some ("aa"))).length = 2 := by decide

/-- C4 counterexample: the decision trace of a dry run is not always equal
to the decision trace of the same command sequence run for real: purging
`/a` and then `/b` over Scenario A reports two deletions dry but only one
for real, because the real first purge removes `/a/x` and leaves `/b/x`
without a duplicate. -/
theorem dryrun_decisions_differ :
    ¬ ((runOps true opsC4 stA).2 = (runOps false opsC4 stA).2) := by decide

/-- C4 amended: a dry run of any command sequence leaves the index and the
filesystem unchanged, and a single verify or a single remove reports under
dry run exactly what the real run reports from the same state. -/
theorem dryrun_invariance :
    (∀ (ops : List Op) (s : St), (runOps true ops s).1 = s) ∧
    (∀ (fs : FS) (idx : DB), (Integrity true fs idx).2 = (Integrity false fs idx).2) ∧
    (∀ (pfx : String) (idx : DB), (Remove true pfx idx).2 = (Remove false pfx idx).2) := by
  refine ⟨runOps_dry_state, ?_, ?_⟩
  · intro fs idx
    exact integrityGo_reports_dry fs _ idx idx []
  · intro pfx idx
    unfold Remove
    rw [removeGo_reports_spec, removeGo_reports_spec]

/-- C5 (same-directory collision gate): a real `Purge` deletes a candidate
only when the number of members of its live duplicate group residing in the
candidate's directory — the candidate included — is exactly one; in
particular, on Scenario B (two identical files in the same directory),
`purge("/a")` deletes neither and prints no purge line. -/
theorem purge_collision_gate :
    (∀ (pfx : String) (s : St), ∀ c ∈ (Purge false pfx s).certs,
      (dupsOf c.1.index c.2.2).countP (fun x => sameDir c.2.1 x.1) = 1) ∧
    ((Purge false ("/a") stB).certs = [] ∧ (Purge false ("/a") stB).reports = [] ∧
     (Purge false ("/a") stB).state = stB) := by
  constructor
  · intro pfx s c hc
    have hsafe : SafeToDelete c.1 c.2.1 c.2.2 := by
      refine purgeGo_certs_safe pfx _ s [] [] (by simp) ?_ c hc
      intro r hr
      exact Or.inl (List.mem_of_mem_filter hr)
    exact hsafe.2.2.2.2.1
  · decide

/-- Witness for C5: the deletion executed in Scenario A has collision count
exactly one. -/
theorem purge_collision_gate_witness :
    (dupsOf stA.index hDig).countP (fun x => sameDir ("/a/x") x.1) = 1 :=
  purge_collision_gate.1 ("/a") stA (stA, ("/a/x"), hDig) (by decide)

/-- C6 counterexample: an error raised while processing a single file can
abort the batch: when `os.remove` fails on `/a/x` (entry not removable),
the purge run aborts with the exception instead of completing. -/
theorem purge_abort_on_remove_failure :
    (Purge false ("/a") stC).aborted = some ("/a/x") := by decide

/-- C6 amended: each per-candidate eligibility failure (absent file, failed
or stale re-hash, symlink, ambiguous duplicate) only skips that candidate,
and a purge batch over a well-formed index completes without aborting
whenever every filesystem deletion it attempts succeeds; only a failing
`os.remove` aborts the batch. -/
theorem purge_batch_completes (dry : Bool) (pfx : String) (s : St)
    (hnd : pathsNodup s.index) (hrm : allRemovable s.fs) :
    (Purge dry pfx s).aborted = none := by
  cases dry with
  | true => exact (Purge_dry pfx s).2
  | false =>
    unfold Purge
    refine purgeGo_no_abort pfx _ s [] [] ?_ ?_ hrm
    · exact List.Nodup.sublist (List.Sublist.map Prod.fst (List.filter_sublist s.index)) hnd
    · intro r hr
      exact List.mem_of_mem_filter hr

/-- Witness for amended C6: the Scenario A purge completes. -/
theorem purge_batch_completes_witness : (Purge false ("/a") stA).aborted = none :=
  purge_batch_completes false ("/a") stA (by unfold pathsNodup; decide)
    (by unfold allRemovable; decide)

/-- C7 (verify idempotence): a second real integrity pass over an unchanged
filesystem performs zero index updates and zero index deletions: it returns
the index of the first pass unchanged and reports nothing. -/
theorem verify_idempotent (fs : FS) (idx : DB) :
    Integrity false fs (Integrity false fs idx).1 = ((Integrity false fs idx).1, []) := by
  have hgood : ∀ r ∈ (Integrity false fs idx).1, GoodRec fs r := by
    intro r hr
    refine integrityGo_good fs (sortLe pathLeB idx) idx [] ?_ r hr
    intro r2 hr2
    exact Or.inl ((mem_sortLe pathLeB idx r2).mpr hr2)
  unfold Integrity
  refine integrityGo_noop fs _ _ [] ?_
  intro r hr
  exact hgood r ((mem_sortLe pathLeB _ r).mp hr)

/-- C8 (hasher contract): `HashFile` returns `none` exactly when the path
does not exist or the file cannot be read, and otherwise returns the
SHA-256 hex digest of the file's full byte content, the block-read loop
feeding exactly the whole content; as a total function it has no side
effects and never raises. -/
theorem hash_contract (fs : FS) (p : String) :
    (HashFile fs p = none ↔
      fsLookup fs p = none ∨ ∃ e, fsLookup fs p = some e ∧ e.readable = false) ∧
    (∀ e, fsLookup fs p = some e → e.readable = true →
      HashFile fs p = some (sha256hex e.content)) := by
  cases hl : fsLookup fs p with
  | none =>
    constructor
    · simp [HashFile, hl]
    · intro e he
      exact absurd he (by simp)
  | some e =>
    constructor
    · by_cases hr : e.readable = true
      · constructor
        · intro h
          rw [show HashFile fs p = some (sha256hex (feedBlocks [] e.content)) from by
              simp [HashFile, hl, hr]] at h
          exact absurd h (by simp)
        · intro h
          rcases h with h | ⟨e2, he2, hre2⟩
          · exact absurd h (by simp)
          · obtain rfl := Option.some_inj.mp he2
            exact absurd hr (by simp [hre2])
      · have hrf : e.readable = false := by
          revert hr
          cases e.readable <;> simp
        constructor
        · intro _
          exact Or.inr ⟨e, rfl, hrf⟩
        · intro _
          simp [HashFile, hl, hrf]
    · intro e2 he2 hre2
      obtain rfl := Option.some_inj.mp he2
      rw [show HashFile fs p = some (sha256hex (feedBlocks [] e.content)) from by
          simp [HashFile, hl, hre2]]
      rw [feedBlocks_spec]

/-- Witness for C8: a permission-denied file hashes to `none`, a readable
file to the SHA-256 digest of its content. -/
theorem hash_contract_witness :
    HashFile fsE ("/a/den") = none ∧ HashFile fsE ("/a/x") = some (sha256hex cBytes) :=
  ⟨(hash_contract fsE ("/a/den")).1.mpr (Or.inr ⟨entDenied, rfl, rfl⟩),
   (hash_contract fsE ("/a/x")).2 entOK rfl rfl⟩

/-- The path at which the purge loop aborts is a snapshot record. -/
theorem purgeGo_abort_mem (pfx : String) : ∀ (snap : DB) (st : St) (reps : List Report)
    (certs : List (St × String × Option String)) (p : String),
    (purgeGo false pfx snap st reps certs).aborted = some p →
    ∃ h, (p, h) ∈ snap := by
  intro snap
  induction snap with
  | nil => intro st reps certs p hab; exact absurd hab (by simp [purgeGo])
  | cons hd tl ih =>
    intro st reps certs p hab
    obtain ⟨q, hq⟩ := hd
    simp only [purgeGo] at hab
    split at hab
    case isFalse hsd =>
      obtain ⟨h, hm⟩ := ih st reps certs p hab
      exact ⟨h, List.mem_cons_of_mem _ hm⟩
    case isTrue hsd =>
      split at hab
      case isTrue hdie =>
        obtain ⟨h, hm⟩ := ih st reps certs p hab
        exact ⟨h, List.mem_cons_of_mem _ hm⟩
      case isFalse hdie =>
        split at hab
        case isTrue hlen =>
          obtain ⟨h, hm⟩ := ih st reps certs p hab
          exact ⟨h, List.mem_cons_of_mem _ hm⟩
        case isFalse hlen =>
          split at hab
          case isFalse hcnt =>
            obtain ⟨h, hm⟩ := ih st reps certs p hab
            exact ⟨h, List.mem_cons_of_mem _ hm⟩
          case isTrue hcnt =>
            cases hrm : osRemove st.fs q with
            | some fs2 =>
              simp only [hrm, Bool.false_eq_true, if_false] at hab
              obtain ⟨h, hm⟩ := ih _ _ _ p hab
              exact ⟨h, List.mem_cons_of_mem _ hm⟩
            | none =>
              simp only [hrm, Bool.false_eq_true, if_false] at hab
              have hpq : q = p := Option.some_inj.mp hab
              exact ⟨hq, by rw [← hpq]; exact List.mem_cons_self _ _⟩

/-- C9 counterexample: the claimed consequence is false of the program: when
`os.remove` fails on `/a/x`, the run aborts before `Database.close()` can
commit, the uncommitted SQL `DELETE` is rolled back, and the persistent
index still holds the record of `/a/x` although the file still exists on
disk — the index does still hold a record for a file that still exists. -/
theorem purge_abort_rollback :
    (Purge false ("/a") stC).aborted = some ("/a/x") ∧
    (("/a/x"), hDig) ∈ persistedIndex false ("/a") stC ∧
    fsLookup (Purge false ("/a") stC).state.fs ("/a/x") ≠ none := by decide

/-- C9 amended (deletion order and its real consequence): a real `Purge`
issues the index `DELETE` before attempting the disk deletion, so when the
disk deletion fails and aborts the run the connection-visible index holds
no record for the path; but the abort bypasses the close-time commit, so
the persistent index rolls back to its pre-run contents and still holds a
record for the path, whose file is still present on the filesystem. -/
theorem purge_uncommitted_delete (pfx : String) (s : St) (p : String)
    (hnd : pathsNodup s.index)
    (hab : (Purge false pfx s).aborted = some p) :
    (∀ h, (p, h) ∉ (Purge false pfx s).state.index) ∧
    persistedIndex false pfx s = s.index ∧
    (∃ h, (p, h) ∈ persistedIndex false pfx s) ∧
    fsLookup (Purge false pfx s).state.fs p ≠ none := by
  have hpers : persistedIndex false pfx s = s.index := by
    unfold persistedIndex
    rw [hab]
  unfold Purge at hab ⊢
  have habst := purgeGo_abort_state pfx _ s [] [] p
    (List.Nodup.sublist (List.Sublist.map Prod.fst (List.filter_sublist s.index)) hnd)
    (fun r hr => List.mem_of_mem_filter hr) hab
  obtain ⟨h0, hm0⟩ := purgeGo_abort_mem pfx _ s [] [] p hab
  refine ⟨habst.1, hpers, ⟨h0, ?_⟩, habst.2⟩
  rw [hpers]
  exact List.mem_of_mem_filter hm0

/-- Witness for amended C9: in the failing-removal scenario the aborted run
no longer sees the record of `/a/x` on its connection, but the persistent
index keeps all pre-run records — including the one for `/a/x`, whose file
is still on disk. -/
theorem purge_uncommitted_delete_witness :
    (∀ h, (("/a/x"), h) ∉ (Purge false ("/a") stC).state.index) ∧
    persistedIndex false ("/a") stC = stC.index ∧
    (∃ h, (("/a/x"), h) ∈ persistedIndex false ("/a") stC) ∧
    fsLookup (Purge false ("/a") stC).state.fs ("/a/x") ≠ none :=
  purge_uncommitted_delete ("/a") stC ("/a/x") (by unfold pathsNodup; decide)
    (by decide)

/-- C10 (unreadable file on verify): for a record whose file exists but
cannot be read, a real integrity pass reports the file as changed from its
stored digest to the absent value, and replaces the stored digest with the
absent value in the index. -/
theorem verify_unreadable_updates (fs : FS) (idx : DB) (p : String) (h : String) (e : FEntry)
    (hm : (p, some h) ∈ idx) (hl : fsLookup fs p = some e) (hr : e.readable = false) :
    Report.changed p (some h) none ∈ (Integrity false fs idx).2 ∧
    (p, none) ∈ (Integrity false fs idx).1 := by
  have hhf : HashFile fs p = none := by simp [HashFile, hl, hr]
  have hlne : fsLookup fs p ≠ none := by rw [hl]; simp
  constructor
  · have hrep := integrityGo_report_of fs p (some h) (sortLe pathLeB idx) idx []
      ((mem_sortLe pathLeB idx _).mpr hm) hlne (by rw [hhf]; simp)
    rw [hhf] at hrep
    exact hrep
  · obtain ⟨h2, hm2⟩ := integrityGo_keeps fs p (sortLe pathLeB idx) idx [] ⟨some h, hm⟩ hlne
    have hgood := integrityGo_good fs (sortLe pathLeB idx) idx []
      (fun r hr2 => Or.inl ((mem_sortLe pathLeB idx r).mpr hr2)) (p, h2) hm2
    have hh2 : h2 = none := by simpa [hhf] using hgood.2
    rw [← hh2]
    exact hm2

/-- Witness for C10: the unreadable `/a/x` is reported as changed to the
absent digest and its record is updated accordingly. -/
theorem verify_unreadable_updates_witness :
    Report.changed ("/a/x") (some ("deadbeef")) none ∈ (Integrity false fsF idxF).2 ∧
    (("/a/x"), none) ∈ (Integrity false fsF idxF).1 :=
  verify_unreadable_updates fsF idxF ("/a/x") ("deadbeef") entDenied (by decide) rfl rfl
